import Mathlib

/-!
Shallow embedding of the convolution engine and image container of the
`fast_image_resize` crate, together with theorems checking the
natural-language specification against it.

Convention: the `f64` accumulator of the convolution loops is idealized as an
exact rational number (`ℚ`); machine integers are `ℕ`/`ℤ`; Rust slices are
Lean lists; the fallible constructors return `Except`.
-/

set_option autoImplicit false

namespace FIR

universe u v

/-- Rounding used by Rust's `f64::round`: round half away from zero
(`ss.round()` in `src/convolution/i32x1/native.rs`). -/
def f64Round (x : ℚ) : ℤ := if 0 ≤ x then ⌊x + 1/2⌋ else ⌈x - 1/2⌉

/-- Rust's saturating cast `as i32` applied to an (already rounded) value. -/
def i32Sat (n : ℤ) : ℤ := max (-(2 ^ 31)) (min (2 ^ 31 - 1) n)

/-- `ss.round() as i32`: the store policy of the integer pixel type `I32`
(`src/convolution/i32x1/native.rs`, lines 22 and 43). -/
def i32Store (ss : ℚ) : ℤ := i32Sat (f64Round ss)

/-- A coefficient chunk (`Coefficients::get_chunks` element): the first source
index with non-negligible weight plus the list of weights. -/
structure CoeffsChunk where
  start : ℕ
  values : List ℚ
  deriving Repr, DecidableEq

/-- `chunks.getD d ⟨0, []⟩`: the chunk used for destination index `d`. -/
def chunkAt (chunks : List CoeffsChunk) (d : ℕ) : CoeffsChunk :=
  chunks.getD d ⟨0, []⟩

/-- `writeZip f dst src` models a Rust loop
`for (d, s) in dst.iter_mut().zip(src) { *d = f(*d, s) }`:
paired elements are rewritten, leftover `dst` elements keep their value. -/
def writeZip {α : Type u} {β : Type v} (f : α → β → α) : List α → List β → List α
  | a :: as, b :: bs => f a b :: writeZip f as bs
  | as, [] => as
  | [], _ :: _ => []

section Generic

variable {π : Type u} (load : π → ℚ) (store : ℚ → π)

/-- Inner loop of `horiz_convolution`
(`src/convolution/i32x1/native.rs`, lines 16-22): slice the source row at
`chunk.start`, zip with the weights, accumulate `ss += pixel as f64 * k`
and store. Generic in the pixel type via `load`/`store`. -/
def horizPixel (srcRow : List π) (chunk : CoeffsChunk) : π :=
  store ((chunk.values.zip (srcRow.drop chunk.start)).foldl
    (fun ss kp => ss + load kp.2 * kp.1) 0)

/-- `horiz_convolution` (`src/convolution/i32x1/native.rs`, lines 5-25):
destination rows are zipped with the source rows starting at `offset`, each
destination pixel is zipped with its coefficient chunk and overwritten. -/
def horiz_convolution (src dst : List (List π)) (offset : ℕ)
    (chunks : List CoeffsChunk) : List (List π) :=
  writeZip
    (fun dstRow srcRow =>
      writeZip (fun _ chunk => horizPixel load store srcRow chunk) dstRow chunks)
    dst (src.drop offset)

/-- Inner loop of `vert_convolution`
(`src/convolution/i32x1/native.rs`, lines 37-43): zip the source rows starting
at `chunk.start` with the weights, read column `x` of each row, accumulate
and store. `d0` is the (never used under the preconditions) out-of-bounds
default standing in for `get_unchecked`. -/
def vertPixel (src : List (List π)) (d0 : π) (chunk : CoeffsChunk) (x : ℕ) : π :=
  store (((src.drop chunk.start).zip chunk.values).foldl
    (fun ss rk => ss + load (rk.1.getD x d0) * rk.2) 0)

/-- `vert_convolution` (`src/convolution/i32x1/native.rs`, lines 27-46):
coefficient chunks are zipped with the destination rows; every pixel of a
paired destination row is overwritten (the `enumerate()` loop). -/
def vert_convolution (src dst : List (List π)) (d0 : π)
    (chunks : List CoeffsChunk) : List (List π) :=
  writeZip
    (fun dstRow chunk =>
      (List.range dstRow.length).map (vertPixel load store src d0 chunk))
    dst chunks

end Generic

/-- `I32` pixels load as exact doubles and store via round + cast
(`src/convolution/i32x1/native.rs`). -/
def horiz_convolution_i32 (src dst : List (List ℤ)) (offset : ℕ)
    (chunks : List CoeffsChunk) : List (List ℤ) :=
  horiz_convolution (fun p : ℤ => (p : ℚ)) i32Store src dst offset chunks

/-- `vert_convolution` instantiated at the `I32` pixel type
(`src/convolution/i32x1/native.rs`). -/
def vert_convolution_i32 (src dst : List (List ℤ))
    (chunks : List CoeffsChunk) : List (List ℤ) :=
  vert_convolution (fun p : ℤ => (p : ℚ)) i32Store src dst 0 chunks

/-- Modelled from the spec: `src/convolution/f32x1/native.rs` is not part of
the given sources; per §4.4 the `F32` scalar path accumulates identically and
"floating-point destination pixels store the accumulator directly". -/
def horiz_convolution_f32 (src dst : List (List ℚ)) (offset : ℕ)
    (chunks : List CoeffsChunk) : List (List ℚ) :=
  horiz_convolution id id src dst offset chunks

/-- Modelled from the spec: vertical `F32` scalar path, storing the
accumulator directly (spec §4.4). -/
def vert_convolution_f32 (src dst : List (List ℚ))
    (chunks : List CoeffsChunk) : List (List ℚ) :=
  vert_convolution id id src dst 0 chunks

/-- Modelled from the spec: `CpuExtensions` (defined in `resizer.rs`, not part
of the given sources) is "an enumerated acceleration preference"; the concrete
variant names do not matter for any claim, only that it is a closed enumeration. -/
inductive CpuExtensions where
  | none
  | sse4_1
  | avx2
  deriving Repr, DecidableEq

/-- `<F32 as Convolution>::horiz_convolution`
(`src/convolution/f32x1/mod.rs`, lines 9-19): every acceleration preference
takes the native scalar path. -/
def f32_horiz_convolution_dispatch (src dst : List (List ℚ)) (offset : ℕ)
    (chunks : List CoeffsChunk) (cpu_extensions : CpuExtensions) : List (List ℚ) :=
  match cpu_extensions with
  | _ => horiz_convolution_f32 src dst offset chunks

/-- `<F32 as Convolution>::vert_convolution`
(`src/convolution/f32x1/mod.rs`, lines 21-30). -/
def f32_vert_convolution_dispatch (src dst : List (List ℚ))
    (chunks : List CoeffsChunk) (cpu_extensions : CpuExtensions) : List (List ℚ) :=
  match cpu_extensions with
  | _ => vert_convolution_f32 src dst chunks

/-- `PixelType` (spec §3; definition lives in `pixels.rs`, outside the given
sources, but the variant list is fixed by `image.rs`'s `match` arms). -/
inductive PixelType where
  | u8
  | u16
  | u8x3
  | u16x3
  | u8x4
  | i32
  | f32
  deriving Repr, DecidableEq

/-- Modelled from the spec: per-pixel byte size of each `PixelType`
(`PixelType::size` in `pixels.rs` is not among the given sources; §3 fixes
channel counts 1,1,3,3,4,1,1 and scalar widths). -/
def PixelType.size : PixelType → ℕ
  | .u8 => 1
  | .u16 => 2
  | .u8x3 => 3
  | .u16x3 => 6
  | .u8x4 => 4
  | .i32 => 4
  | .f32 => 4

/-- Modelled from the spec: the scalar width each `PixelType` requires its
buffer base address to be aligned to (§3: "multi-byte-scalar variants
(U16, U16x3, I32, F32) require their buffer's base address to satisfy the
scalar's natural alignment"). -/
def PixelType.scalarSize : PixelType → ℕ
  | .u8 => 1
  | .u16 => 2
  | .u8x3 => 1
  | .u16x3 => 2
  | .u8x4 => 1
  | .i32 => 4
  | .f32 => 4

/-- Modelled from the spec: `PixelType::is_aligned` (`pixels.rs`, outside the
given sources): the base address must be a multiple of the scalar width.
A byte buffer is modelled as its base address plus its contents. -/
def PixelType.isAligned (pt : PixelType) (addr : ℕ) : Bool :=
  addr % pt.scalarSize == 0

/-- `InvalidBufferSizeError` (`errors.rs`): the only error of the `u32`/`u16`
backed constructors. -/
structure InvalidBufferSizeError where
  deriving Repr, DecidableEq

/-- `ImageBufferError` (`errors.rs`): errors of the byte-backed constructors. -/
inductive ImageBufferError where
  | invalidBufferSize
  | invalidBufferAlignment
  deriving Repr, DecidableEq

/-- `PixelsContainer` (`src/image.rs`, lines 7-15). Byte-backed containers
carry their base address (Rust `u16`/`u32` containers are aligned by
construction, so no address is modelled for them). -/
inductive PixelsContainer where
  | mutU32 (data : List ℕ)
  | mutU16 (data : List ℕ)
  | mutU8 (addr : ℕ) (data : List ℕ)
  | vecU32 (data : List ℕ)
  | vecU8 (addr : ℕ) (data : List ℕ)
  | vecU16 (data : List ℕ)
  deriving Repr, DecidableEq

/-- `Image` (`src/image.rs`, lines 17-24). -/
structure Image where
  width : ℕ
  height : ℕ
  pixels : PixelsContainer
  pixelType : PixelType
  deriving Repr, DecidableEq

/-- `Image::from_vec_u32` (`src/image.rs`, lines 47-63): only the element
count is checked, against `width * height`. -/
def Image.from_vec_u32 (width height : ℕ) (buffer : List ℕ)
    (pixel_type : PixelType) : Except InvalidBufferSizeError Image :=
  if buffer.length ≠ width * height then .error ⟨⟩
  else .ok ⟨width, height, .vecU32 buffer, pixel_type⟩

/-- `Image::from_vec_u8` (`src/image.rs`, lines 65-84): byte count checked
against `width * height * pixel_type.size()`, then alignment. -/
def Image.from_vec_u8 (width height : ℕ) (addr : ℕ) (buffer : List ℕ)
    (pixel_type : PixelType) : Except ImageBufferError Image :=
  if buffer.length ≠ width * height * pixel_type.size then
    .error .invalidBufferSize
  else if ¬ pixel_type.isAligned addr then .error .invalidBufferAlignment
  else .ok ⟨width, height, .vecU8 addr buffer, pixel_type⟩

/-- `Image::from_slice_u32` (`src/image.rs`, lines 86-102). -/
def Image.from_slice_u32 (width height : ℕ) (buffer : List ℕ)
    (pixel_type : PixelType) : Except InvalidBufferSizeError Image :=
  if buffer.length ≠ width * height then .error ⟨⟩
  else .ok ⟨width, height, .mutU32 buffer, pixel_type⟩

/-- `Image::from_slice_u16` (`src/image.rs`, lines 104-120). -/
def Image.from_slice_u16 (width height : ℕ) (buffer : List ℕ)
    (pixel_type : PixelType) : Except InvalidBufferSizeError Image :=
  if buffer.length ≠ width * height then .error ⟨⟩
  else .ok ⟨width, height, .mutU16 buffer, pixel_type⟩

/-- `Image::from_slice_u8` (`src/image.rs`, lines 122-141). -/
def Image.from_slice_u8 (width height : ℕ) (addr : ℕ) (buffer : List ℕ)
    (pixel_type : PixelType) : Except ImageBufferError Image :=
  if buffer.length ≠ width * height * pixel_type.size then
    .error .invalidBufferSize
  else if ¬ pixel_type.isAligned addr then .error .invalidBufferAlignment
  else .ok ⟨width, height, .mutU8 addr buffer, pixel_type⟩

/-- Row segment `i` of the partition `view_mut` builds with
`chunks_exact_mut(width)` over the pixel buffer
(`src/image.rs`, lines 219-256): the fixed-stride slice
`buffer[i*width .. i*width + width]`. -/
def rowSegment {π : Type u} (width : ℕ) (buffer : List π) (i : ℕ) : List π :=
  (buffer.drop (i * width)).take width

/-- Full overwrite of row segment `i` through the mutable view: the buffer
with bytes `[i*width, i*width + width)` replaced by `s`. -/
def overwriteRow {π : Type u} (width : ℕ) (buffer : List π) (i : ℕ)
    (s : List π) : List π :=
  buffer.take (i * width) ++ s ++ buffer.drop (i * width + width)

/-- The row segments `view_mut` produces, in order. -/
def viewMutRows {π : Type u} (width height : ℕ) (buffer : List π) :
    List (List π) :=
  (List.range height).map (rowSegment width buffer)

/-- `writeZip` with a fallible per-element update: `none` as soon as one
update fails, otherwise the same list as `writeZip`. -/
def writeZipM {α : Type u} {β : Type v} (f : α → β → Option α) :
    List α → List β → Option (List α)
  | a :: as, b :: bs =>
    (f a b).bind fun a2 => (writeZipM f as bs).map fun rest => a2 :: rest
  | as, [] => some as
  | [], _ :: _ => some []

/-- Total variant of the horizontal inner loop in which the slice
`src_row.get_unchecked(first_x_src..)` is bounds-checked: `none` when
`chunk.start` exceeds the row length (the only access `get_unchecked`
makes out of bounds there). -/
def horizPixelI32Checked (srcRow : List ℤ) (chunk : CoeffsChunk) : Option ℤ :=
  if chunk.start ≤ srcRow.length then
    some (horizPixel (fun p : ℤ => (p : ℚ)) i32Store srcRow chunk)
  else Option.none

/-- `horiz_convolution` for `I32` with every unchecked source access replaced
by a checked one. -/
def horiz_convolution_i32_checked (src dst : List (List ℤ)) (offset : ℕ)
    (chunks : List CoeffsChunk) : Option (List (List ℤ)) :=
  writeZipM
    (fun dstRow srcRow =>
      writeZipM (fun _ chunk => horizPixelI32Checked srcRow chunk) dstRow chunks)
    dst (src.drop offset)

/-- Total variant of the vertical inner loop: each
`src_row.get_unchecked(x_src)` becomes an `Option`-returning lookup. -/
def vertFoldChecked (x : ℕ) (ss : ℚ) :
    List (List ℤ) → List ℚ → Option ℚ
  | row :: rows, k :: ks =>
    row[x]?.bind fun p => vertFoldChecked x (ss + (p : ℚ) * k) rows ks
  | _, [] => some ss
  | [], _ :: _ => some ss

/-- Checked vertical destination pixel. -/
def vertPixelI32Checked (src : List (List ℤ)) (chunk : CoeffsChunk)
    (x : ℕ) : Option ℤ :=
  (vertFoldChecked x 0 (src.drop chunk.start) chunk.values).map i32Store

/-- `vert_convolution` for `I32` with every unchecked source access replaced
by a checked one. -/
def vert_convolution_i32_checked (src dst : List (List ℤ))
    (chunks : List CoeffsChunk) : Option (List (List ℤ)) :=
  writeZipM
    (fun dstRow chunk =>
      (List.range dstRow.length).mapM (vertPixelI32Checked src chunk))
    dst chunks

/-- Transpose of a row-major integer matrix with `w` columns (the spec-side
operation of the separability law, §8). -/
def transposeMat (w : ℕ) (m : List (List ℤ)) : List (List ℤ) :=
  (List.range w).map fun x => m.map fun row => row.getD x 0

/-- Identity coefficients for an axis of length `n`: one chunk per
destination index with `start` equal to that index and the single weight 1
(spec §8, "Identity resize"). -/
def idChunks (n : ℕ) : List CoeffsChunk :=
  (List.range n).map fun i => ⟨i, [1]⟩

/-- Pixel of a row-major matrix at row `r`, column `c`, default `d0`. -/
def pixAtD {π : Type u} (m : List (List π)) (d0 : π) (r c : ℕ) : π :=
  (m.getD r []).getD c d0

/-- Integer pixel at row `r`, column `c` (default 0). -/
def pixAt (m : List (List ℤ)) (r c : ℕ) : ℤ := pixAtD m 0 r c

/-- Rational pixel at row `r`, column `c` (default 0). -/
def pixAtQ (m : List (List ℚ)) (r c : ℕ) : ℚ := pixAtD m 0 r c

/-! ### Helper lemmas -/

theorem writeZip_length {α : Type u} {β : Type v} (f : α → β → α) :
    ∀ (as : List α) (bs : List β), (writeZip f as bs).length = as.length
  | [], [] => rfl
  | [], _ :: _ => rfl
  | _ :: _, [] => rfl
  | a :: as, b :: bs => by
    simp [writeZip, writeZip_length f as bs]

theorem writeZip_getD_both {α : Type u} {β : Type v} (f : α → β → α)
    (da : α) (db : β) :
    ∀ (as : List α) (bs : List β) (i : ℕ), i < as.length → i < bs.length →
      (writeZip f as bs).getD i da = f (as.getD i da) (bs.getD i db)
  | [], _, _, ha, _ => absurd ha (by simp)
  | _ :: _, [], _, _, hb => absurd hb (by simp)
  | a :: as, b :: bs, 0, _, _ => rfl
  | a :: as, b :: bs, i + 1, ha, hb => by
    simpa [writeZip] using
      writeZip_getD_both f da db as bs i (by simpa using ha) (by simpa using hb)

theorem writeZip_getD_keep {α : Type u} {β : Type v} (f : α → β → α)
    (da : α) :
    ∀ (as : List α) (bs : List β) (i : ℕ), bs.length ≤ i →
      (writeZip f as bs).getD i da = as.getD i da
  | [], [], _, _ => rfl
  | [], _ :: _, _, _ => by simp [writeZip]
  | _ :: _, [], _, _ => rfl
  | a :: as, b :: bs, 0, hb => absurd hb (by simp)
  | a :: as, b :: bs, i + 1, hb => by
    simpa [writeZip] using
      writeZip_getD_keep f da as bs i (by simpa using hb)

theorem foldl_zip_eq_sum {α : Type u} {β : Type v} (g : α → β → ℚ)
    (da : α) (db : β) :
    ∀ (as : List α) (bs : List β) (a0 : ℚ),
      (as.zip bs).foldl (fun m ab => m + g ab.1 ab.2) a0
        = a0 + ∑ j ∈ Finset.range (min as.length bs.length),
            g (as.getD j da) (bs.getD j db)
  | [], bs, a0 => by simp
  | _ :: _, [], a0 => by simp
  | a :: as, b :: bs, a0 => by
    have ih := foldl_zip_eq_sum g da db as bs (a0 + g a b)
    simp only [List.zip_cons_cons, List.foldl_cons] at ih ⊢
    rw [ih, List.length_cons, List.length_cons, Nat.succ_min_succ,
      Finset.sum_range_succ']
    simp only [List.getD_cons_succ, List.getD_cons_zero]
    ring

theorem getD_drop {α : Type u} (l : List α) (d : α) (n i : ℕ) :
    (l.drop n).getD i d = l.getD (n + i) d := by
  rw [List.getD_eq_getElem?_getD, List.getD_eq_getElem?_getD,
    List.getElem?_drop]

theorem getD_map_range {π : Type u} (f : ℕ → π) (n x : ℕ) (d0 : π)
    (hx : x < n) :
    ((List.range n).map f).getD x d0 = f x := by
  rw [List.getD_eq_getElem?_getD, List.getElem?_map, List.getElem?_range hx]
  rfl

theorem list_ext_getD {α : Type u} (d : α) (l1 l2 : List α)
    (h : l1.length = l2.length)
    (he : ∀ i, i < l1.length → l1.getD i d = l2.getD i d) : l1 = l2 := by
  refine List.ext_getElem h fun n h1 h2 => ?_
  have := he n h1
  rwa [List.getD_eq_getElem _ _ h1, List.getD_eq_getElem _ _ h2] at this

theorem horizPixel_eq {π : Type u} (load : π → ℚ) (store : ℚ → π)
    (srcRow : List π) (chunk : CoeffsChunk) (d0 : π)
    (h : chunk.start + chunk.values.length ≤ srcRow.length) :
    horizPixel load store srcRow chunk
      = store (∑ k ∈ Finset.range chunk.values.length,
          load (srcRow.getD (chunk.start + k) d0) * chunk.values.getD k 0) := by
  unfold horizPixel
  rw [foldl_zip_eq_sum (fun k p => load p * k) 0 d0, zero_add]
  have hmin : min chunk.values.length (srcRow.drop chunk.start).length
      = chunk.values.length := by
    simp only [List.length_drop]
    omega
  rw [hmin]
  congr 1
  refine Finset.sum_congr rfl fun k hk => ?_
  rw [getD_drop]

theorem vertPixel_eq {π : Type u} (load : π → ℚ) (store : ℚ → π)
    (src : List (List π)) (d0 : π) (chunk : CoeffsChunk) (x : ℕ)
    (h : chunk.start + chunk.values.length ≤ src.length) :
    vertPixel load store src d0 chunk x
      = store (∑ j ∈ Finset.range chunk.values.length,
          load ((src.getD (chunk.start + j) []).getD x d0)
            * chunk.values.getD j 0) := by
  unfold vertPixel
  rw [foldl_zip_eq_sum (fun row k => load (row.getD x d0) * k) [] 0, zero_add]
  have hmin : min (src.drop chunk.start).length chunk.values.length
      = chunk.values.length := by
    simp only [List.length_drop]
    omega
  rw [hmin]
  refine congrArg store (Finset.sum_congr rfl fun j hj => ?_)
  rw [getD_drop]

theorem horiz_convolution_pixAtD {π : Type u} (load : π → ℚ) (store : ℚ → π)
    (src dst : List (List π)) (offset : ℕ) (chunks : List CoeffsChunk)
    (d0 : π) (r d : ℕ)
    (hr : r < dst.length) (hrs : offset + r < src.length)
    (hd : d < (dst.getD r []).length) (hdc : d < chunks.length) :
    pixAtD (horiz_convolution load store src dst offset chunks) d0 r d
      = horizPixel load store (src.getD (offset + r) []) (chunkAt chunks d) := by
  unfold pixAtD horiz_convolution
  rw [writeZip_getD_both _ [] [] dst (src.drop offset) r hr
    (by simp only [List.length_drop]; omega)]
  rw [getD_drop]
  rw [writeZip_getD_both _ d0 ⟨0, []⟩ _ chunks d hd hdc]
  rfl

theorem vert_convolution_pixAtD {π : Type u} (load : π → ℚ) (store : ℚ → π)
    (src dst : List (List π)) (d0 : π) (chunks : List CoeffsChunk) (r x : ℕ)
    (hr : r < dst.length) (hrc : r < chunks.length)
    (hx : x < (dst.getD r []).length) :
    pixAtD (vert_convolution load store src dst d0 chunks) d0 r x
      = vertPixel load store src d0 (chunkAt chunks r) x := by
  unfold pixAtD vert_convolution
  rw [writeZip_getD_both _ [] ⟨0, []⟩ dst chunks r hr hrc]
  exact getD_map_range _ _ _ _ hx

theorem f64Round_intCast (z : ℤ) : f64Round (z : ℚ) = z := by
  unfold f64Round
  have hfloor : ⌊(z : ℚ) + 1/2⌋ = z := by
    rw [Int.floor_int_add]
    norm_num
  have hceil : ⌈(z : ℚ) - 1/2⌉ = z := by
    rw [sub_eq_add_neg, add_comm, Int.ceil_add_int]
    norm_num
  split
  · exact hfloor
  · exact hceil

theorem i32Store_intCast (z : ℤ) (h1 : -(2 ^ 31) ≤ z) (h2 : z < 2 ^ 31) :
    i32Store (z : ℚ) = z := by
  unfold i32Store i32Sat
  rw [f64Round_intCast]
  omega

theorem chunkAt_mem (chunks : List CoeffsChunk) (d : ℕ)
    (h : d < chunks.length) : chunkAt chunks d ∈ chunks := by
  unfold chunkAt
  rw [List.getD_eq_getElem _ _ h]
  exact List.getElem_mem _

theorem getD_mem_of_lt {α : Type u} (l : List α) (d : α) (i : ℕ)
    (h : i < l.length) : l.getD i d ∈ l := by
  rw [List.getD_eq_getElem _ _ h]
  exact List.getElem_mem _

/-! ### Claim theorems -/

/-- C1: horizontal convolution for `I32` — under the claim's preconditions
(`len(coeffs)` equals the destination width, every chunk fits inside the
source width), destination pixel `(r, d)` is computed from source row
`r + offset` as the weighted sum
`Σ_k values[k] · src[r+offset][start+k]` accumulated exactly (the idealized
`f64`), rounded to nearest and cast to the `i32` range. -/
theorem c1_horiz_convolution_i32 (src dst : List (List ℤ)) (offset : ℕ)
    (chunks : List CoeffsChunk) (W r d : ℕ)
    (hsw : ∀ row ∈ src, row.length = W)
    (hlen : chunks.length = (dst.getD r []).length)
    (hb : ∀ c ∈ chunks, c.start + c.values.length ≤ W)
    (hr : r < dst.length) (hrs : offset + r < src.length)
    (hd : d < (dst.getD r []).length) :
    pixAt (horiz_convolution_i32 src dst offset chunks) r d
      = i32Sat (f64Round (∑ k ∈ Finset.range (chunkAt chunks d).values.length,
          (pixAt src (offset + r) ((chunkAt chunks d).start + k) : ℚ)
            * (chunkAt chunks d).values.getD k 0)) := by
  have hdc : d < chunks.length := hlen ▸ hd
  have hmemr : src.getD (offset + r) [] ∈ src := getD_mem_of_lt src [] _ hrs
  have hbound : (chunkAt chunks d).start + (chunkAt chunks d).values.length
      ≤ (src.getD (offset + r) []).length := by
    rw [hsw _ hmemr]
    exact hb _ (chunkAt_mem chunks d hdc)
  unfold horiz_convolution_i32 pixAt
  rw [horiz_convolution_pixAtD _ _ src dst offset chunks 0 r d hr hrs hd hdc,
    horizPixel_eq _ _ _ _ 0 hbound]
  rfl

theorem c1_horiz_convolution_i32_witness :
    ((∀ row ∈ ([[10, 20]] : List (List ℤ)), row.length = 2)
      ∧ (∀ c ∈ ([⟨0, [1]⟩, ⟨0, [1/2, 1/2]⟩] : List CoeffsChunk),
          c.start + c.values.length ≤ 2))
    ∧ pixAt (horiz_convolution_i32 [[10, 20]] [[0, 0]] 0
        [⟨0, [1]⟩, ⟨0, [1/2, 1/2]⟩]) 0 1
      = i32Sat (f64Round (∑ k ∈ Finset.range
            (chunkAt [⟨0, [1]⟩, ⟨0, [1/2, 1/2]⟩] 1).values.length,
          (pixAt [[10, 20]] (0 + 0)
              ((chunkAt [⟨0, [1]⟩, ⟨0, [1/2, 1/2]⟩] 1).start + k) : ℚ)
            * (chunkAt [⟨0, [1]⟩, ⟨0, [1/2, 1/2]⟩] 1).values.getD k 0)) :=
  ⟨⟨by decide, by decide⟩,
   c1_horiz_convolution_i32 [[10, 20]] [[0, 0]] 0 [⟨0, [1]⟩, ⟨0, [1/2, 1/2]⟩]
     2 0 1 (by decide) (by decide) (by decide) (by decide) (by decide)
     (by decide)⟩

/-- C2: vertical convolution for `I32` — under the claim's preconditions
(`len(coeffs)` equals the destination height, every chunk fits inside the
source height, source and destination widths match), destination pixel
`(r, x)` gathers one pixel at column `x` from each source row in
`[start, start + len(values))` and stores the rounded weighted sum. -/
theorem c2_vert_convolution_i32 (src dst : List (List ℤ))
    (chunks : List CoeffsChunk) (W r x : ℕ)
    (hsw : ∀ row ∈ src, row.length = W)
    (hdw : (dst.getD r []).length = W)
    (hlen : chunks.length = dst.length)
    (hb : ∀ c ∈ chunks, c.start + c.values.length ≤ src.length)
    (hr : r < dst.length) (hx : x < (dst.getD r []).length) :
    pixAt (vert_convolution_i32 src dst chunks) r x
      = i32Sat (f64Round (∑ j ∈ Finset.range (chunkAt chunks r).values.length,
          (pixAt src ((chunkAt chunks r).start + j) x : ℚ)
            * (chunkAt chunks r).values.getD j 0)) := by
  have hrc : r < chunks.length := hlen ▸ hr
  have hbound : (chunkAt chunks r).start + (chunkAt chunks r).values.length
      ≤ src.length := hb _ (chunkAt_mem chunks r hrc)
  unfold vert_convolution_i32 pixAt
  rw [vert_convolution_pixAtD _ _ src dst 0 chunks r x hr hrc hx,
    vertPixel_eq _ _ _ _ _ _ hbound]
  rfl

theorem c2_vert_convolution_i32_witness :
    ((∀ row ∈ ([[7], [9]] : List (List ℤ)), row.length = 1)
      ∧ (∀ c ∈ ([⟨0, [1/2, 1/2]⟩] : List CoeffsChunk),
          c.start + c.values.length ≤ 2))
    ∧ pixAt (vert_convolution_i32 [[7], [9]] [[0]] [⟨0, [1/2, 1/2]⟩]) 0 0
      = i32Sat (f64Round (∑ j ∈ Finset.range
            (chunkAt [⟨0, [1/2, 1/2]⟩] 0).values.length,
          (pixAt [[7], [9]] ((chunkAt [⟨0, [1/2, 1/2]⟩] 0).start + j) 0 : ℚ)
            * (chunkAt [⟨0, [1/2, 1/2]⟩] 0).values.getD j 0)) :=
  ⟨⟨by decide, by decide⟩,
   c2_vert_convolution_i32 [[7], [9]] [[0]] [⟨0, [1/2, 1/2]⟩] 1 0 0
     (by decide) (by decide) (by decide) (by decide) (by decide) (by decide)⟩

/-- C8: the 3-tap uniform box filter (weights `[1/3, 1/3, 1/3]`, start 1)
at destination index 2 over the source row `[0, 3, 6, 9, 12]` stores
`round((3+6+9)/3) = 6`. -/
theorem c8_box_filter_instance :
    pixAt (horiz_convolution_i32 [[0, 3, 6, 9, 12]] [[0, 0, 0]] 0
        [⟨0, [1]⟩, ⟨0, [1]⟩, ⟨1, [1/3, 1/3, 1/3]⟩]) 0 2
      = f64Round ((3 + 6 + 9) / 3)
    ∧ f64Round ((3 + 6 + 9) / 3) = 6 := by
  have h6 : f64Round ((3 + 6 + 9) / 3 : ℚ) = 6 := by
    norm_num [f64Round]
  refine ⟨?_, h6⟩
  rw [h6]
  simp only [horiz_convolution_i32, horiz_convolution, writeZip, horizPixel,
    i32Store, pixAt, pixAtD, List.drop_zero]
  norm_num [f64Round, i32Sat]

/-- C7: the acceleration preference passed to the `F32` convolution entry
points never changes the result: every `CpuExtensions` value produces exactly
the portable scalar (native) result, for both passes. -/
theorem c7_cpu_extensions_fallback (src dst : List (List ℚ)) (offset : ℕ)
    (chunks : List CoeffsChunk) (cpu_extensions : CpuExtensions) :
    f32_horiz_convolution_dispatch src dst offset chunks cpu_extensions
        = horiz_convolution_f32 src dst offset chunks
    ∧ f32_vert_convolution_dispatch src dst chunks cpu_extensions
        = vert_convolution_f32 src dst chunks := by
  cases cpu_extensions <;> exact ⟨rfl, rfl⟩

/-- C3 counterexample: `from_vec_u32` checks only the element count against
`width·height`, never the pixel type's byte size: with `PixelType::U8` a
one-element `u32` buffer (4 bytes) for a 1×1 image (1 byte needed) is
accepted, so "fails with InvalidBufferSize iff byte length ≠
width·height·pixel_byte_size" is false. -/
theorem c3_counterexample :
    Image.from_vec_u32 1 1 [0] PixelType.u8
        = .ok ⟨1, 1, .vecU32 [0], PixelType.u8⟩
    ∧ 4 * ([0] : List ℕ).length ≠ 1 * 1 * PixelType.u8.size := by
  exact ⟨rfl, by decide⟩

/-- C3 (amended): the byte-backed constructors fail with `InvalidBufferSize`
iff the byte length differs from `width·height·pixel_byte_size`; the word-
and doubleword-backed constructors instead check their element count against
`width·height` alone, ignoring the pixel type's byte size. -/
theorem c3_from_buffer_size (w h addr : ℕ) (buf8 buf16 buf32 : List ℕ)
    (pt : PixelType) :
    ((Image.from_vec_u8 w h addr buf8 pt = .error .invalidBufferSize)
        ↔ buf8.length ≠ w * h * pt.size)
    ∧ ((Image.from_slice_u8 w h addr buf8 pt = .error .invalidBufferSize)
        ↔ buf8.length ≠ w * h * pt.size)
    ∧ ((Image.from_vec_u32 w h buf32 pt = .error ⟨⟩)
        ↔ buf32.length ≠ w * h)
    ∧ ((Image.from_slice_u32 w h buf32 pt = .error ⟨⟩)
        ↔ buf32.length ≠ w * h)
    ∧ ((Image.from_slice_u16 w h buf16 pt = .error ⟨⟩)
        ↔ buf16.length ≠ w * h) := by
  unfold Image.from_vec_u8 Image.from_slice_u8 Image.from_vec_u32
    Image.from_slice_u32 Image.from_slice_u16
  refine ⟨?_, ?_, ?_, ?_, ?_⟩ <;> split_ifs <;> simp_all

/-- C4: for a byte-backed buffer of the correct size, construction fails with
`InvalidBufferAlignment` exactly when the pixel type's scalar width exceeds
one byte and the base address is not a multiple of it, and succeeds
otherwise — for both the owned and the borrowed byte constructor. -/
theorem c4_alignment_check (w h addr : ℕ) (buf : List ℕ) (pt : PixelType)
    (hsize : buf.length = w * h * pt.size) :
    ((Image.from_vec_u8 w h addr buf pt = .error .invalidBufferAlignment)
        ↔ 1 < pt.scalarSize ∧ addr % pt.scalarSize ≠ 0)
    ∧ ((Image.from_vec_u8 w h addr buf pt).isOk
        ↔ ¬(1 < pt.scalarSize ∧ addr % pt.scalarSize ≠ 0))
    ∧ ((Image.from_slice_u8 w h addr buf pt = .error .invalidBufferAlignment)
        ↔ 1 < pt.scalarSize ∧ addr % pt.scalarSize ≠ 0)
    ∧ ((Image.from_slice_u8 w h addr buf pt).isOk
        ↔ ¬(1 < pt.scalarSize ∧ addr % pt.scalarSize ≠ 0)) := by
  have key : ¬(pt.isAligned addr = true)
      ↔ (1 < pt.scalarSize ∧ addr % pt.scalarSize ≠ 0) := by
    cases pt <;>
      simp [PixelType.isAligned, PixelType.scalarSize, Nat.mod_one]
  have hsz : ¬(buf.length ≠ w * h * pt.size) := fun hh => hh hsize
  unfold Image.from_vec_u8 Image.from_slice_u8
  rw [if_neg hsz, if_neg hsz]
  by_cases hal : pt.isAligned addr = true
  · rw [if_neg (not_not_intro hal), if_neg (not_not_intro hal)]
    have hrhs : ¬(1 < pt.scalarSize ∧ addr % pt.scalarSize ≠ 0) :=
      (not_iff_not.mpr key).mp (not_not_intro hal)
    refine ⟨?_, ?_, ?_, ?_⟩ <;> simp [Except.isOk, Except.toBool, hrhs]
  · rw [if_pos hal, if_pos hal]
    have hrhs := key.mp hal
    refine ⟨?_, ?_, ?_, ?_⟩ <;> simp [Except.isOk, Except.toBool, hrhs]

theorem c4_alignment_check_witness :
    (([0, 0, 0, 0] : List ℕ).length = 1 * 1 * PixelType.i32.size)
    ∧ (((Image.from_vec_u8 1 1 2 [0, 0, 0, 0] PixelType.i32
            = .error .invalidBufferAlignment)
        ↔ 1 < PixelType.i32.scalarSize ∧ 2 % PixelType.i32.scalarSize ≠ 0)
      ∧ ((Image.from_vec_u8 1 1 2 [0, 0, 0, 0] PixelType.i32).isOk
        ↔ ¬(1 < PixelType.i32.scalarSize ∧ 2 % PixelType.i32.scalarSize ≠ 0))
      ∧ ((Image.from_slice_u8 1 1 2 [0, 0, 0, 0] PixelType.i32
            = .error .invalidBufferAlignment)
        ↔ 1 < PixelType.i32.scalarSize ∧ 2 % PixelType.i32.scalarSize ≠ 0)
      ∧ ((Image.from_slice_u8 1 1 2 [0, 0, 0, 0] PixelType.i32).isOk
        ↔ ¬(1 < PixelType.i32.scalarSize
              ∧ 2 % PixelType.i32.scalarSize ≠ 0))) :=
  ⟨by decide, c4_alignment_check 1 1 2 [0, 0, 0, 0] PixelType.i32 (by decide)⟩

theorem idChunks_length (n : ℕ) : (idChunks n).length = n := by
  simp [idChunks]

theorem chunkAt_idChunks (n i : ℕ) (h : i < n) :
    chunkAt (idChunks n) i = ⟨i, [1]⟩ := by
  unfold chunkAt idChunks
  exact getD_map_range _ _ _ _ h

theorem horizPixel_id {π : Type u} (load : π → ℚ) (store : ℚ → π)
    (row : List π) (d : ℕ) (d0 : π) (h : d + 1 ≤ row.length) :
    horizPixel load store row ⟨d, [1]⟩ = store (load (row.getD d d0)) := by
  rw [horizPixel_eq load store row ⟨d, [1]⟩ d0 (by simpa using h)]
  simp

theorem vertPixel_id {π : Type u} (load : π → ℚ) (store : ℚ → π)
    (src : List (List π)) (d0 : π) (r x : ℕ) (h : r + 1 ≤ src.length) :
    vertPixel load store src d0 ⟨r, [1]⟩ x
      = store (load ((src.getD r []).getD x d0)) := by
  rw [vertPixel_eq load store src d0 ⟨r, [1]⟩ x (by simpa using h)]
  simp

/-- C5: identity coefficients (chunk `i` = start `i`, single weight 1) over
equal dimensions reproduce the input: within one unit per pixel for the
integer pixel type `I32` (in fact exactly, given pixels in the `i32` range)
and exactly for the floating pixel type. Both passes. -/
theorem c5_identity_convolution
    (srcI dstI : List (List ℤ)) (srcQ dstQ : List (List ℚ)) (w r d : ℕ)
    (hIsw : ∀ row ∈ srcI, row.length = w)
    (hIdw : ∀ row ∈ dstI, row.length = w)
    (hIh : dstI.length = srcI.length)
    (hQsw : ∀ row ∈ srcQ, row.length = w)
    (hQdw : ∀ row ∈ dstQ, row.length = w)
    (hQh : dstQ.length = srcQ.length)
    (hrange : ∀ row ∈ srcI, ∀ p ∈ row, -(2 ^ 31) ≤ p ∧ p < 2 ^ 31)
    (hrI : r < dstI.length) (hrQ : r < dstQ.length) (hd : d < w) :
    (pixAt (horiz_convolution_i32 srcI dstI 0 (idChunks w)) r d
        - pixAt srcI r d).natAbs ≤ 1
    ∧ (pixAt (vert_convolution_i32 srcI dstI (idChunks dstI.length)) r d
        - pixAt srcI r d).natAbs ≤ 1
    ∧ pixAtQ (horiz_convolution_f32 srcQ dstQ 0 (idChunks w)) r d
        = pixAtQ srcQ r d
    ∧ pixAtQ (vert_convolution_f32 srcQ dstQ (idChunks dstQ.length)) r d
        = pixAtQ srcQ r d := by
  have hrsI : r < srcI.length := hIh ▸ hrI
  have hrsQ : r < srcQ.length := hQh ▸ hrQ
  have hIdrow : (dstI.getD r []).length = w := hIdw _ (getD_mem_of_lt _ _ _ hrI)
  have hQdrow : (dstQ.getD r []).length = w := hQdw _ (getD_mem_of_lt _ _ _ hrQ)
  have hIsrow : (srcI.getD r []).length = w := hIsw _ (getD_mem_of_lt _ _ _ hrsI)
  have hQsrow : (srcQ.getD r []).length = w := hQsw _ (getD_mem_of_lt _ _ _ hrsQ)
  have hdI : d < (dstI.getD r []).length := by omega
  have hdQ : d < (dstQ.getD r []).length := by omega
  have hpixmem : (srcI.getD r []).getD d 0 ∈ srcI.getD r [] :=
    getD_mem_of_lt _ _ _ (by omega)
  have hpix := hrange _ (getD_mem_of_lt _ _ _ hrsI) _ hpixmem
  have hstore : i32Store (((srcI.getD r []).getD d 0 : ℤ) : ℚ)
      = (srcI.getD r []).getD d 0 :=
    i32Store_intCast _ hpix.1 hpix.2
  refine ⟨?_, ?_, ?_, ?_⟩
  · have e : pixAt (horiz_convolution_i32 srcI dstI 0 (idChunks w)) r d
        = pixAt srcI r d := by
      unfold horiz_convolution_i32 pixAt
      rw [horiz_convolution_pixAtD _ _ srcI dstI 0 (idChunks w) 0 r d hrI
        (by simpa using hrsI) hdI (by rw [idChunks_length]; omega)]
      rw [chunkAt_idChunks w d hd, Nat.zero_add,
        horizPixel_id _ _ _ _ (0 : ℤ) (by omega)]
      exact hstore
    rw [e]
    simp
  · have e : pixAt (vert_convolution_i32 srcI dstI (idChunks dstI.length)) r d
        = pixAt srcI r d := by
      unfold vert_convolution_i32 pixAt
      rw [vert_convolution_pixAtD _ _ srcI dstI 0 (idChunks dstI.length) r d
        hrI (by rw [idChunks_length]; omega) hdI]
      rw [chunkAt_idChunks dstI.length r hrI,
        vertPixel_id _ _ _ (0 : ℤ) r d (by omega)]
      exact hstore
    rw [e]
    simp
  · unfold horiz_convolution_f32 pixAtQ
    rw [horiz_convolution_pixAtD _ _ srcQ dstQ 0 (idChunks w) 0 r d hrQ
      (by simpa using hrsQ) hdQ (by rw [idChunks_length]; omega)]
    rw [chunkAt_idChunks w d hd, Nat.zero_add,
      horizPixel_id _ _ _ _ (0 : ℚ) (by omega)]
    rfl
  · unfold vert_convolution_f32 pixAtQ
    rw [vert_convolution_pixAtD _ _ srcQ dstQ 0 (idChunks dstQ.length) r d
      hrQ (by rw [idChunks_length]; omega) hdQ]
    rw [chunkAt_idChunks dstQ.length r hrQ,
      vertPixel_id _ _ _ (0 : ℚ) r d (by omega)]
    rfl

theorem c5_identity_convolution_witness :
    ((∀ row ∈ ([[5]] : List (List ℤ)), row.length = 1)
      ∧ (∀ row ∈ ([[5]] : List (List ℤ)), ∀ p ∈ row,
          -(2 ^ 31) ≤ p ∧ p < 2 ^ 31))
    ∧ ((pixAt (horiz_convolution_i32 [[5]] [[9]] 0 (idChunks 1)) 0 0
        - pixAt [[5]] 0 0).natAbs ≤ 1
      ∧ (pixAt (vert_convolution_i32 [[5]] [[9]]
            (idChunks ([[9]] : List (List ℤ)).length)) 0 0
        - pixAt [[5]] 0 0).natAbs ≤ 1
      ∧ pixAtQ (horiz_convolution_f32 [[1/2]] [[3]] 0 (idChunks 1)) 0 0
        = pixAtQ [[1/2]] 0 0
      ∧ pixAtQ (vert_convolution_f32 [[1/2]] [[3]]
            (idChunks ([[3]] : List (List ℚ)).length)) 0 0
        = pixAtQ [[1/2]] 0 0) :=
  ⟨⟨by decide, by decide⟩,
   c5_identity_convolution [[5]] [[9]] [[1/2]] [[3]] 1 0 0
     (by decide) (by decide) (by decide) (by decide) (by decide) (by decide)
     (by decide) (by decide) (by decide) (by decide)⟩

/-- C9: the fixed-stride row segments of `view_mut` are pairwise disjoint:
fully overwriting row segment `i` leaves every other row segment `j ≠ i` of
the buffer unchanged. -/
theorem c9_view_mut_rows_disjoint {π : Type u} (w h : ℕ) (buf s : List π)
    (i j : ℕ) (hs : s.length = w) (hbuf : buf.length = w * h)
    (hi : i < h) (hj : j < h) (hij : j ≠ i) :
    (viewMutRows w h (overwriteRow w buf i s)).getD j []
      = (viewMutRows w h buf).getD j [] := by
  unfold viewMutRows
  rw [getD_map_range _ _ _ _ hj, getD_map_range _ _ _ _ hj]
  have hle : i * w + w ≤ buf.length := by
    calc i * w + w = (i + 1) * w := (Nat.succ_mul i w).symm
      _ ≤ h * w := Nat.mul_le_mul_right w (by omega)
      _ = w * h := Nat.mul_comm h w
      _ = buf.length := hbuf.symm
  have htl : (buf.take (i * w)).length = i * w := by
    rw [List.length_take]
    omega
  unfold rowSegment overwriteRow
  rw [List.append_assoc]
  rcases Nat.lt_or_ge j i with hlt | hge
  · have hjw : j * w + w ≤ i * w := by
      calc j * w + w = (j + 1) * w := (Nat.succ_mul j w).symm
        _ ≤ i * w := Nat.mul_le_mul_right w (by omega)
    rw [List.drop_append_eq_append_drop, List.take_append_eq_append_take]
    have hdl : (List.drop (j * w) (buf.take (i * w))).length = i * w - j * w := by
      simp [htl]
    rw [show w - (List.drop (j * w) (buf.take (i * w))).length = 0 by omega,
      List.take_zero, List.append_nil, List.drop_take, List.take_take]
    congr 1
    omega
  · have hilt : i < j := by omega
    have hjw : i * w + w ≤ j * w := by
      calc i * w + w = (i + 1) * w := (Nat.succ_mul i w).symm
        _ ≤ j * w := Nat.mul_le_mul_right w (by omega)
    rw [List.drop_append_eq_append_drop,
      List.drop_eq_nil_of_le (le_trans (le_of_eq htl) (by omega)),
      List.nil_append, List.drop_append_eq_append_drop,
      List.drop_eq_nil_of_le (show s.length ≤ j * w - (buf.take (i*w)).length by omega),
      List.nil_append, List.drop_drop]
    congr 2
    omega

theorem c9_view_mut_rows_disjoint_witness :
    ((([30, 40] : List ℤ).length = 2
        ∧ ([1, 2, 3, 4, 5, 6] : List ℤ).length = 2 * 3)
      ∧ (1 : ℕ) ≠ 2)
    ∧ (viewMutRows 2 3 (overwriteRow 2 [1, 2, 3, 4, 5, 6] 2 [30, 40])).getD 1 []
      = (viewMutRows 2 3 ([1, 2, 3, 4, 5, 6] : List ℤ)).getD 1 [] :=
  ⟨⟨⟨by decide, by decide⟩, by decide⟩,
   c9_view_mut_rows_disjoint 2 3 [1, 2, 3, 4, 5, 6] [30, 40] 2 1
     (by decide) (by decide) (by decide) (by decide) (by decide)⟩

theorem getD_map {α : Type u} {β : Type v} (g : α → β) (l : List α) (i : ℕ)
    (da : α) (db : β) (h : i < l.length) :
    (l.map g).getD i db = g (l.getD i da) := by
  rw [List.getD_eq_getElem _ _ (by simpa using h), List.getElem_map,
    List.getD_eq_getElem _ _ h]

theorem transposeMat_length (w : ℕ) (m : List (List ℤ)) :
    (transposeMat w m).length = w := by
  simp [transposeMat]

theorem transposeMat_getD (w : ℕ) (m : List (List ℤ)) (x : ℕ) (hx : x < w) :
    (transposeMat w m).getD x [] = m.map fun row => row.getD x 0 := by
  unfold transposeMat
  exact getD_map_range _ _ _ _ hx

/-- C6: separability/symmetry — vertical convolution applied to the
transposed source, then transposed back, equals horizontal convolution on
the original image with the same coefficients and offset 0 (destination
buffers fully covered, dimensions consistent). -/
theorem c6_separability (src dstH dstV : List (List ℤ))
    (chunks : List CoeffsChunk) (w n : ℕ)
    (hsw : ∀ row ∈ src, row.length = w)
    (hdHh : dstH.length = src.length)
    (hdHw : ∀ row ∈ dstH, row.length = n)
    (hdVh : dstV.length = n)
    (hdVw : ∀ row ∈ dstV, row.length = src.length)
    (hc : chunks.length = n)
    (hb : ∀ c ∈ chunks, c.start + c.values.length ≤ w) :
    transposeMat src.length
        (vert_convolution_i32 (transposeMat w src) dstV chunks)
      = horiz_convolution_i32 src dstH 0 chunks := by
  have hMlen : (vert_convolution_i32 (transposeMat w src) dstV chunks).length
      = n := by
    unfold vert_convolution_i32 vert_convolution
    rw [writeZip_length]
    exact hdVh
  apply list_ext_getD []
  · rw [transposeMat_length]
    unfold horiz_convolution_i32 horiz_convolution
    rw [writeZip_length]
    omega
  · intro r hr
    have hrs : r < src.length := by rwa [transposeMat_length] at hr
    have hrH : r < dstH.length := by omega
    have hHrow : (dstH.getD r []).length = n := hdHw _ (getD_mem_of_lt _ _ _ hrH)
    rw [transposeMat_getD _ _ _ hrs]
    have hRrow : (horiz_convolution_i32 src dstH 0 chunks).getD r []
        = writeZip
            (fun _ chunk => horizPixel (fun p : ℤ => (p : ℚ)) i32Store
              (src.getD r []) chunk)
            (dstH.getD r []) chunks := by
      unfold horiz_convolution_i32 horiz_convolution
      rw [writeZip_getD_both _ [] [] dstH (src.drop 0) r hrH (by simpa using hrs)]
      simp
    rw [hRrow]
    apply list_ext_getD 0
    · rw [writeZip_length, List.length_map, hMlen, hHrow]
    · intro d hd
      have hdn : d < n := by
        rwa [List.length_map, hMlen] at hd
      have hdc : d < chunks.length := by omega
      have hVrow : (dstV.getD d []).length = src.length :=
        hdVw _ (getD_mem_of_lt _ _ _ (by omega))
      have hbd := hb _ (chunkAt_mem chunks d hdc)
      rw [getD_map (fun row => row.getD r 0)
        (vert_convolution_i32 (transposeMat w src) dstV chunks) d [] 0
        (by omega)]
      have hL : (vert_convolution_i32 (transposeMat w src) dstV chunks).getD d []
          = (List.range (dstV.getD d []).length).map
              (vertPixel (fun p : ℤ => (p : ℚ)) i32Store (transposeMat w src) 0
                (chunkAt chunks d)) := by
        unfold vert_convolution_i32 vert_convolution
        rw [writeZip_getD_both _ [] ⟨0, []⟩ dstV chunks d (by omega) hdc]
        rfl
      rw [hL, getD_map_range _ _ _ _ (by omega : r < (dstV.getD d []).length)]
      rw [vertPixel_eq _ _ _ _ _ _ (by rwa [transposeMat_length])]
      rw [writeZip_getD_both _ 0 ⟨0, []⟩ (dstH.getD r []) chunks d (by omega) hdc]
      rw [horizPixel_eq _ _ _ _ 0
        (by rw [hsw _ (getD_mem_of_lt _ _ _ hrs)]; exact hbd)]
      show i32Store _ = i32Store _
      congr 1
      refine Finset.sum_congr rfl fun k hk => ?_
      have hkw : (chunkAt chunks d).start + k < w := by
        have hkk := Finset.mem_range.mp hk
        simp only [chunkAt] at hbd hkk ⊢
        omega
      rw [transposeMat_getD _ _ _ hkw,
        getD_map (fun row => row.getD ((chunkAt chunks d).start + k) 0)
          src r [] 0 hrs]
      rfl

theorem c6_separability_witness :
    ((∀ row ∈ ([[1, 2], [3, 4]] : List (List ℤ)), row.length = 2)
      ∧ (∀ c ∈ ([⟨0, [1/2, 1/2]⟩] : List CoeffsChunk),
          c.start + c.values.length ≤ 2))
    ∧ transposeMat ([[1, 2], [3, 4]] : List (List ℤ)).length
        (vert_convolution_i32 (transposeMat 2 [[1, 2], [3, 4]]) [[0, 0]]
          [⟨0, [1/2, 1/2]⟩])
      = horiz_convolution_i32 [[1, 2], [3, 4]] [[0], [0]] 0
          [⟨0, [1/2, 1/2]⟩] :=
  ⟨⟨by decide, by decide⟩,
   c6_separability [[1, 2], [3, 4]] [[0], [0]] [[0, 0]] [⟨0, [1/2, 1/2]⟩] 2 1
     (by decide) (by decide) (by decide) (by decide) (by decide) (by decide)
     (by decide)⟩

theorem writeZipM_eq_writeZip {α : Type u} {β : Type v}
    (f : α → β → Option α) (g : α → β → α) :
    ∀ (as : List α) (bs : List β),
      (∀ a ∈ as, ∀ b ∈ bs, f a b = some (g a b)) →
      writeZipM f as bs = some (writeZip g as bs)
  | [], [], _ => rfl
  | [], _ :: _, _ => rfl
  | _ :: _, [], _ => rfl
  | a :: as, b :: bs, hfg => by
    have h1 : f a b = some (g a b) := hfg a (by simp) b (by simp)
    have h2 := writeZipM_eq_writeZip f g as bs
      (fun a2 ha b2 hb => hfg a2 (by simp [ha]) b2 (by simp [hb]))
    simp [writeZipM, writeZip, h1, h2]

theorem mapM_eq_map {α : Type u} {β : Type v} (f : α → Option β) (g : α → β) :
    ∀ l : List α, (∀ x ∈ l, f x = some (g x)) → l.mapM f = some (l.map g)
  | [], _ => rfl
  | x :: xs, hfg => by
    have h1 : f x = some (g x) := hfg x (by simp)
    have h2 := mapM_eq_map f g xs (fun y hy => hfg y (by simp [hy]))
    rw [List.mapM_cons, h1, h2]
    rfl

theorem vertFoldChecked_eq (x : ℕ) :
    ∀ (rows : List (List ℤ)) (ks : List ℚ) (ss : ℚ),
      (∀ row ∈ rows, x < row.length) →
      vertFoldChecked x ss rows ks
        = some ((rows.zip ks).foldl
            (fun m rk => m + ((rk.1.getD x 0 : ℤ) : ℚ) * rk.2) ss)
  | [], [], _, _ => rfl
  | [], _ :: _, _, _ => rfl
  | _ :: _, [], _, _ => rfl
  | row :: rows, k :: ks, ss, hx => by
    have hrl : x < row.length := hx row (by simp)
    have hrow : row[x]? = some (row.getD x 0) := by
      rw [List.getElem?_eq_getElem hrl, List.getD_eq_getElem _ _ hrl]
    rw [vertFoldChecked, hrow]
    simp only [List.zip_cons_cons, List.foldl_cons, Option.bind_some]
    exact vertFoldChecked_eq x rows ks _ (fun r hr => hx r (by simp [hr]))

/-- C10 counterexample: the claim's listed preconditions (only the chunk
bounds) do not make the vertical pass's `get_unchecked(x_src)` safe. With a
2×1 source, a 1×2 destination and the single valid chunk
`{start 0, values [1]}` (0 + 1 ≤ source height 2), the checked embedding
reaches an out-of-bounds column access and returns `none`. -/
theorem c10_counterexample :
    (∀ c ∈ ([⟨0, [1]⟩] : List CoeffsChunk),
        c.start + c.values.length ≤ ([[1], [2]] : List (List ℤ)).length)
    ∧ vert_convolution_i32_checked [[1], [2]] [[0, 0]] [⟨0, [1]⟩]
        = Option.none :=
  ⟨by decide, rfl⟩

/-- C10 (amended): with the chunk bounds of the claim AND the spec's
width-match precondition for the vertical pass (destination rows no wider
than every source row), every checked source access succeeds: the checked
embeddings of both passes return `some` of the unchecked results, so the
out-of-bounds branch is unreachable. -/
theorem c10_unchecked_accesses_in_bounds (src dst : List (List ℤ))
    (offset W : ℕ) (chunksH chunksV : List CoeffsChunk)
    (hsw : ∀ row ∈ src, row.length = W)
    (hbh : ∀ c ∈ chunksH, c.start + c.values.length ≤ W)
    (hbv : ∀ c ∈ chunksV, c.start + c.values.length ≤ src.length)
    (hwm : ∀ row ∈ dst, row.length ≤ W) :
    horiz_convolution_i32_checked src dst offset chunksH
        = some (horiz_convolution_i32 src dst offset chunksH)
    ∧ vert_convolution_i32_checked src dst chunksV
        = some (vert_convolution_i32 src dst chunksV) := by
  constructor
  · unfold horiz_convolution_i32_checked horiz_convolution_i32
      horiz_convolution
    apply writeZipM_eq_writeZip
    intro dstRow _ srcRow hsrcRow
    apply writeZipM_eq_writeZip
    intro _p _ chunk hchunk
    unfold horizPixelI32Checked
    rw [if_pos]
    have hlen : srcRow.length = W :=
      hsw _ (List.mem_of_mem_drop hsrcRow)
    have := hbh _ hchunk
    omega
  · unfold vert_convolution_i32_checked vert_convolution_i32 vert_convolution
    apply writeZipM_eq_writeZip
    intro dstRow hdstRow chunk hchunk
    apply mapM_eq_map
    intro x hx
    have hxw : x < W := by
      have h1 : x < dstRow.length := List.mem_range.mp hx
      have h2 := hwm _ hdstRow
      omega
    unfold vertPixelI32Checked
    rw [vertFoldChecked_eq x (src.drop chunk.start) chunk.values 0
      (fun row hrow => by rw [hsw _ (List.mem_of_mem_drop hrow)]; exact hxw)]
    rfl

theorem c10_unchecked_accesses_in_bounds_witness :
    ((∀ row ∈ ([[1, 2], [3, 4]] : List (List ℤ)), row.length = 2)
      ∧ (∀ c ∈ ([⟨0, [1/2, 1/2]⟩] : List CoeffsChunk),
          c.start + c.values.length ≤ 2)
      ∧ (∀ row ∈ ([[0, 0]] : List (List ℤ)), row.length ≤ 2))
    ∧ (horiz_convolution_i32_checked [[1, 2], [3, 4]] [[0, 0]] 0
          [⟨0, [1/2, 1/2]⟩]
        = some (horiz_convolution_i32 [[1, 2], [3, 4]] [[0, 0]] 0
            [⟨0, [1/2, 1/2]⟩])
      ∧ vert_convolution_i32_checked [[1, 2], [3, 4]] [[0, 0]]
          [⟨0, [1/2, 1/2]⟩]
        = some (vert_convolution_i32 [[1, 2], [3, 4]] [[0, 0]]
            [⟨0, [1/2, 1/2]⟩])) :=
  ⟨⟨by decide, by decide, by decide⟩,
   c10_unchecked_accesses_in_bounds [[1, 2], [3, 4]] [[0, 0]] 0 2
     [⟨0, [1/2, 1/2]⟩] [⟨0, [1/2, 1/2]⟩] (by decide) (by decide) (by decide)
     (by decide)⟩

end FIR
